import Mathlib

/-!
Verification of the fetch/cache/clean/merge core of the Telegram lookup bot
(`bot.py`). The JSON-like trees handled by the bot are modelled by the
inductive type `Json`; the functions `clean_api_data`, `cache_get`/`cache_set`,
`fetch_with_retries` and the `cpf_full` merge loop are translated directly
from the Python source, and the stated properties of the specification are
proved or refuted below.
-/

/-- A JSON-like tree as produced by the upstream APIs: null, string, number,
boolean, sequence, or mapping with string keys (insertion-ordered, as in a
Python dict). -/
inductive Json where
  | null : Json
  | str (s : String) : Json
  | num (n : Int) : Json
  | bool (b : Bool) : Json
  | arr (l : List Json) : Json
  | obj (l : List (String × Json)) : Json
  deriving Repr

mutual

/-- Structural (Python `==`) equality on `Json`, as a boolean function. -/
def jeq : Json → Json → Bool
  | Json.null, Json.null => true
  | Json.str a, Json.str b => a == b
  | Json.num a, Json.num b => a == b
  | Json.bool a, Json.bool b => a == b
  | Json.arr a, Json.arr b => jeqList a b
  | Json.obj a, Json.obj b => jeqPairs a b
  | _, _ => false
termination_by structural a => a

def jeqList : List Json → List Json → Bool
  | [], [] => true
  | a :: as, b :: bs => jeq a b && jeqList as bs
  | _, _ => false
termination_by structural a => a

def jeqPairs : List (String × Json) → List (String × Json) → Bool
  | [], [] => true
  | (k, v) :: as, (k2, v2) :: bs => k == k2 && jeq v v2 && jeqPairs as bs
  | _, _ => false
termination_by structural a => a

end

/-- Strong induction on the size of a `Json` tree (used because `Json` nests
through `List`, so the default recursor is awkward to use directly). -/
theorem json_size_ind (P : Json → Prop)
    (ih : ∀ j, (∀ k, sizeOf k < sizeOf j → P k) → P j) : ∀ j, P j := by
  have H : ∀ n j, sizeOf j ≤ n → P j := by
    intro n
    induction n with
    | zero =>
      intro j h
      exact ih j (fun k hk => absurd (Nat.lt_of_lt_of_le hk h) (Nat.not_lt_zero _))
    | succ n IH =>
      intro j h
      exact ih j (fun k hk => IH k (Nat.le_of_lt_succ (Nat.lt_of_lt_of_le hk h)))
  exact fun j => H (sizeOf j) j (Nat.le_refl _)

theorem sizeOf_mem_arr {y : Json} {l : List Json} (h : y ∈ l) :
    sizeOf y < sizeOf (Json.arr l) := by
  have := List.sizeOf_lt_of_mem h
  simp only [Json.arr.sizeOf_spec]
  omega

theorem sizeOf_mem_obj {k : String} {v : Json} {l : List (String × Json)}
    (h : (k, v) ∈ l) : sizeOf v < sizeOf (Json.obj l) := by
  have h1 := List.sizeOf_lt_of_mem h
  have h2 : sizeOf (k, v) = 1 + sizeOf k + sizeOf v := rfl
  simp only [Json.obj.sizeOf_spec]
  omega

theorem jeq_iff : ∀ a b, jeq a b = true ↔ a = b := by
  have main : ∀ a, (∀ k, sizeOf k < sizeOf a → ∀ b, jeq k b = true ↔ k = b) →
      ∀ b, jeq a b = true ↔ a = b := by
    intro a IH b
    cases a <;> cases b <;>
      simp only [jeq, beq_iff_eq, Json.str.injEq, Json.num.injEq, Json.bool.injEq,
        Json.arr.injEq, Json.obj.injEq] <;>
      try simp
    case arr.arr la lb =>
      induction la generalizing lb with
      | nil => cases lb <;> simp [jeqList]
      | cons x xs ihx =>
        cases lb with
        | nil => simp [jeqList]
        | cons y ys =>
          have hx : ∀ b, jeq x b = true ↔ x = b :=
            IH x (sizeOf_mem_arr (List.mem_cons_self _ _))
          have hxs : jeqList xs ys = true ↔ xs = ys := by
            apply ihx
            intro k hk
            exact IH k (by
              have h1 : sizeOf (Json.arr xs) ≤ sizeOf (Json.arr (x :: xs)) := by
                simp only [Json.arr.sizeOf_spec, List.cons.sizeOf_spec]; omega
              omega)
          simp [jeqList, hx, hxs]
    case obj.obj la lb =>
      induction la generalizing lb with
      | nil => cases lb <;> simp [jeqPairs]
      | cons x xs ihx =>
        cases lb with
        | nil => simp [jeqPairs]
        | cons y ys =>
          obtain ⟨k, v⟩ := x
          obtain ⟨k2, v2⟩ := y
          have hv : ∀ b, jeq v b = true ↔ v = b :=
            IH v (sizeOf_mem_obj (List.mem_cons_self _ _))
          have hxs : jeqPairs xs ys = true ↔ xs = ys := by
            apply ihx
            intro z hz
            exact IH z (by
              have h1 : sizeOf (Json.obj xs) ≤ sizeOf (Json.obj ((k, v) :: xs)) := by
                simp only [Json.obj.sizeOf_spec, List.cons.sizeOf_spec]; omega
              omega)
          simp [jeqPairs, hv, hxs, Bool.and_assoc, and_assoc]
  exact json_size_ind _ main

instance : DecidableEq Json := fun a b => decidable_of_iff (jeq a b = true) (jeq_iff a b)

/-- `FIELDS_TO_REMOVE` from bot.py line 122: keys dropped by the cleaner. -/
def FIELDS_TO_REMOVE : List String :=
  ["status", "message", "mensagem", "source", "token", "timestamp", "limit", "success", "code", "error"]

/-- Python `str.lower()` as used in `clean_api_data`: lower-case every
character (ASCII case mapping, which is all the fixed noise keys need). -/
def strLower (s : String) : String := String.mk (s.data.map Char.toLower)

/-- The Python test `v in [None, "", [], {}]` from `clean_api_data`:
true exactly for null, the empty string, the empty list and the empty dict. -/
def isEmptyJ : Json → Bool
  | Json.null => true
  | Json.str s => s = ""
  | Json.arr l => l.isEmpty
  | Json.obj l => l.isEmpty
  | _ => false

mutual

/-- `clean_api_data` from bot.py lines 170-190. Dict branch: skip falsy keys,
skip keys whose lower-case form is in `FIELDS_TO_REMOVE`, skip empty values,
recursively clean the value and skip it if the cleaned value is empty.
List branch: clean each element and keep the non-empty ones. Any other
value is returned unchanged. -/
def clean_api_data : Json → Json
  | Json.obj l => Json.obj (cleanPairs l)
  | Json.arr l => Json.arr (cleanList l)
  | x => x
termination_by structural x => x

/-- The dict-comprehension part of `clean_api_data` (the `for k, v in
data.items()` loop with its four `continue` guards). -/
def cleanPairs : List (String × Json) → List (String × Json)
  | [] => []
  | (k, v) :: rest =>
    if k = "" then cleanPairs rest
    else if strLower k ∈ FIELDS_TO_REMOVE then cleanPairs rest
    else if isEmptyJ v then cleanPairs rest
    else
      let c := clean_api_data v
      if isEmptyJ c then cleanPairs rest
      else (k, c) :: cleanPairs rest
termination_by structural l => l

/-- The list branch of `clean_api_data`: `lst = [clean_api_data(i) for i in
data]; return [i for i in lst if i not in (None, "", [], {})]`, fused into
one pass. -/
def cleanList : List Json → List Json
  | [] => []
  | x :: rest =>
    let c := clean_api_data x
    if isEmptyJ c then cleanList rest else c :: cleanList rest
termination_by structural l => l

end

/-- The TTL cache `CACHE` from bot.py line 116: a partial map from string
keys to an expiry instant paired with a cached value. Time instants are
modelled by rationals (the code uses `time.time()` floats, of which only the
ordering matters here). -/
def Cache : Type := String → Option (ℚ × Json)

/-- `cache_set` from bot.py line 135: unconditional overwrite, expiry is
`time.time() + ttl`. The current time is an explicit argument. -/
def cache_set (c : Cache) (now : ℚ) (key : String) (value : Json) (ttl : ℚ) : Cache :=
  fun k => if k = key then some (now + ttl, value) else c k

/-- `cache_get` from bot.py lines 125-133: a missing key is absent; an entry
whose expiry is strictly in the past is deleted and reported absent;
otherwise the value is served. Returns the result and the updated cache. -/
def cache_get (c : Cache) (now : ℚ) (key : String) : Option Json × Cache :=
  match c key with
  | none => (none, c)
  | some (expiry, v) =>
    if now > expiry then (none, fun k => if k = key then none else c k)
    else (some v, c)

/-- One observation of `HTTP_CLIENT.get` inside `fetch_with_retries`: either
the awaited GET raises (message `e`), or it yields a response carrying an
HTTP status, a JSON body when `resp.json()` succeeds, and the body text. -/
inductive NetOutcome where
  | raise (e : String) : NetOutcome
  | response (status : Nat) (body : Option Json) (text : String) : NetOutcome

/-- `return resp.json()` when the body parses, else `return {"_raw": text}`
(bot.py lines 158-162). -/
def respToJson (body : Option Json) (text : String) : Json :=
  match body with
  | some j => j
  | none => Json.obj [("_raw", Json.str text)]

/-- Python rendering of `last_exc` inside the f-string: `None` when no
exception was recorded. -/
def excString : Option String → String
  | none => "None"
  | some e => e

/-- The error value built at bot.py line 168:
`{"status": "ERROR", "message": f"Falha ao acessar API ({url}): {last_exc}"}`. -/
def errorDict (url : String) (lastExc : Option String) : Json :=
  Json.obj [("status", Json.str "ERROR"),
            ("message", Json.str ("Falha ao acessar API (" ++ url ++ "): " ++ excString lastExc))]

/-- The `for attempt in range(retries + 1)` loop of `fetch_with_retries`
(bot.py lines 153-167). `net i` is the outcome of the GET on attempt `i`;
`rem` counts the iterations left; a response returns immediately with the
parsed body; an exception is recorded and the loop continues; when the
iterations are exhausted the error dict is returned. The second component
counts the GET attempts actually made. -/
def fetchLoop (net : Nat → NetOutcome) (url : String) :
    Nat → Nat → Option String → Json × Nat
  | attempt, 0, lastExc => (errorDict url lastExc, attempt)
  | attempt, rem + 1, _lastExc =>
    match net attempt with
    | NetOutcome.response _ body text => (respToJson body text, attempt + 1)
    | NetOutcome.raise e => fetchLoop net url (attempt + 1) rem (some e)

/-- `fetch_with_retries` from bot.py lines 147-168, with the network modelled
by the oracle `net`. Returns the result together with the number of GET
attempts performed. -/
def fetch_with_retries (net : Nat → NetOutcome) (url : String) (retries : Nat) : Json × Nat :=
  fetchLoop net url 0 (retries + 1) none

/-- Python dict lookup on an insertion-ordered association list. -/
def lookupKey : List (String × Json) → String → Option Json
  | [], _ => none
  | (k, v) :: rest, key => if k = key then some v else lookupKey rest key

/-- Python dict assignment to an existing key: replace in place, keeping the
insertion order. -/
def updateKey : List (String × Json) → String → Json → List (String × Json)
  | [], _, _ => []
  | (k, v) :: rest, key, nv =>
    if k = key then (k, nv) :: rest else (k, v) :: updateKey rest key nv

/-- `if not isinstance(existing, list): existing = [existing]` from the
merge loop: coerce a value to a list, wrapping non-lists. -/
def asListJ : Json → List Json
  | Json.arr l => l
  | e => [e]

/-- The body of the `cpf_full` merge loop for one key/value pair
(bot.py lines 473-484): a new key is inserted as-is; an equal value is kept;
a different value turns the entry into a list of values, appending the new
value only if not already present. -/
def insertPair (merged : List (String × Json)) (k : String) (v : Json) :
    List (String × Json) :=
  match lookupKey merged k with
  | none => merged ++ [(k, v)]
  | some existing =>
    if existing = v then merged
    else
      let ex := asListJ existing
      let ex2 := if v ∈ ex then ex else ex ++ [v]
      updateKey merged k (Json.arr ex2)

/-- One iteration of `for d in cleaned_list` (bot.py lines 471-484):
non-dict inputs are skipped, dict inputs are folded in pair by pair. -/
def mergeDict (merged : List (String × Json)) (d : Json) : List (String × Json) :=
  match d with
  | Json.obj pairs => pairs.foldl (fun m kv => insertPair m kv.1 kv.2) merged
  | _ => merged

/-- The whole merge of `cmd_cpf_full` (bot.py lines 470-484), starting from
the empty dict. -/
def mergeResults (ds : List Json) : List (String × Json) :=
  ds.foldl mergeDict []

/-- The values a merged input contributes for a given key (a dict contributes
the values stored under that key, anything else contributes none). -/
def valsFor (k : String) : Json → List Json
  | Json.obj pairs => (pairs.filter (fun p => p.1 = k)).map Prod.snd
  | _ => []

/-- The per-key accumulator step of the merge loop, extracted from
`insertPair`: what happens to the value stored under one key when one more
value `v` for that key is processed. -/
def stepVal (acc : Option Json) (v : Json) : Option Json :=
  match acc with
  | none => some v
  | some existing =>
    if existing = v then some existing
    else
      let ex := asListJ existing
      some (Json.arr (if v ∈ ex then ex else ex ++ [v]))

/-- Append a value to a list unless already present (first-seen-order
de-duplication step). -/
def insertDistinct (acc : List Json) (v : Json) : List Json :=
  if v ∈ acc then acc else acc ++ [v]

/-- The distinct values of a list, in first-seen order. -/
def firstSeenDedup (vs : List Json) : List Json := vs.foldl insertDistinct []

/-- Whether a value is a sequence. -/
def isArrJ : Json → Bool
  | Json.arr _ => true
  | _ => false

/-- What the merge loop stores under a key after processing the value list
`vs` for it: nothing when no value was seen, the common value when the
distinct values reduce to one, and the list of distinct first-seen values
otherwise. -/
def accOf (vs : List Json) : Option Json :=
  match firstSeenDedup vs with
  | [] => none
  | [x] => some x
  | x :: y :: rest => some (Json.arr (x :: y :: rest))

/-- The keys of a mapping, in order. -/
def objKeys : Json → List String
  | Json.obj l => l.map Prod.fst
  | _ => []

/-- The `"message"` field of a mapping, when it is a string. -/
def getMessage : Json → Option String
  | Json.obj l =>
    match lookupKey l "message" with
    | some (Json.str s) => some s
    | _ => none
  | _ => none

/-- Characterization of the pairs surviving `cleanPairs`: the key is
non-empty and not noise, the stored value is the non-empty cleaned form of a
value the key had in the input. -/
theorem mem_cleanPairs {l : List (String × Json)} {k : String} {w : Json}
    (h : (k, w) ∈ cleanPairs l) :
    k ≠ "" ∧ strLower k ∉ FIELDS_TO_REMOVE ∧ isEmptyJ w = false ∧
      ∃ v, (k, v) ∈ l ∧ w = clean_api_data v := by
  induction l with
  | nil => simp [cleanPairs] at h
  | cons p rest ih =>
    obtain ⟨k1, v1⟩ := p
    by_cases h1 : k1 = ""
    · simp only [cleanPairs, if_pos h1] at h
      obtain ⟨hk, hf, he, v, hv, hw⟩ := ih h
      exact ⟨hk, hf, he, v, List.mem_cons_of_mem _ hv, hw⟩
    · by_cases h2 : strLower k1 ∈ FIELDS_TO_REMOVE
      · simp only [cleanPairs, if_neg h1, if_pos h2] at h
        obtain ⟨hk, hf, he, v, hv, hw⟩ := ih h
        exact ⟨hk, hf, he, v, List.mem_cons_of_mem _ hv, hw⟩
      · by_cases h3 : isEmptyJ v1 = true
        · simp only [cleanPairs, if_neg h1, if_neg h2, if_pos h3] at h
          obtain ⟨hk, hf, he, v, hv, hw⟩ := ih h
          exact ⟨hk, hf, he, v, List.mem_cons_of_mem _ hv, hw⟩
        · by_cases h4 : isEmptyJ (clean_api_data v1) = true
          · simp only [cleanPairs, if_neg h1, if_neg h2, if_neg h3, if_pos h4] at h
            obtain ⟨hk, hf, he, v, hv, hw⟩ := ih h
            exact ⟨hk, hf, he, v, List.mem_cons_of_mem _ hv, hw⟩
          · simp only [cleanPairs, if_neg h1, if_neg h2, if_neg h3, if_neg h4] at h
            rcases List.mem_cons.mp h with heq | hmem
            · have hk : k = k1 := congrArg Prod.fst heq
              have hw : w = clean_api_data v1 := congrArg Prod.snd heq
              subst hk
              have he : isEmptyJ w = false := by
                rw [hw]; revert h4; cases isEmptyJ (clean_api_data v1) <;> simp
              exact ⟨h1, h2, he, v1, List.mem_cons_self _ _, hw⟩
            · obtain ⟨hk, hf, he, v, hv, hw⟩ := ih hmem
              exact ⟨hk, hf, he, v, List.mem_cons_of_mem _ hv, hw⟩

/-- Characterization of the elements surviving `cleanList`: each is the
non-empty cleaned form of an input element. -/
theorem mem_cleanList {l : List Json} {y : Json} (h : y ∈ cleanList l) :
    isEmptyJ y = false ∧ ∃ x, x ∈ l ∧ y = clean_api_data x := by
  induction l with
  | nil => simp [cleanList] at h
  | cons x rest ih =>
    by_cases h1 : isEmptyJ (clean_api_data x) = true
    · simp only [cleanList, if_pos h1] at h
      obtain ⟨he, z, hz, hy⟩ := ih h
      exact ⟨he, z, List.mem_cons_of_mem _ hz, hy⟩
    · simp only [cleanList, if_neg h1] at h
      rcases List.mem_cons.mp h with heq | hmem
      · subst heq
        have he : isEmptyJ (clean_api_data x) = false := by
          revert h1; cases isEmptyJ (clean_api_data x) <;> simp
        exact ⟨he, x, List.mem_cons_self _ _, rfl⟩
      · obtain ⟨he, z, hz, hy⟩ := ih hmem
        exact ⟨he, z, List.mem_cons_of_mem _ hz, hy⟩

/-- `cleanPairs` leaves a list alone when every pair already satisfies the
surviving conditions. -/
theorem cleanPairs_fixed {m : List (String × Json)}
    (h : ∀ p ∈ m, p.1 ≠ "" ∧ strLower p.1 ∉ FIELDS_TO_REMOVE ∧
      isEmptyJ p.2 = false ∧ clean_api_data p.2 = p.2) : cleanPairs m = m := by
  induction m with
  | nil => rfl
  | cons p rest ih =>
    obtain ⟨k, v⟩ := p
    obtain ⟨h1, h2, h3, h4⟩ := h (k, v) (List.mem_cons_self _ _)
    have h3' : ¬ isEmptyJ v = true := by rw [h3]; simp
    have h5 : ¬ isEmptyJ (clean_api_data v) = true := by rw [h4, h3]; simp
    simp only [cleanPairs, if_neg h1, if_neg h2, if_neg h3', if_neg h5]
    rw [h4, ih (fun q hq => h q (List.mem_cons_of_mem _ hq))]

/-- `cleanList` leaves a list alone when every element is already clean and
non-empty. -/
theorem cleanList_fixed {m : List Json}
    (h : ∀ y ∈ m, isEmptyJ y = false ∧ clean_api_data y = y) : cleanList m = m := by
  induction m with
  | nil => rfl
  | cons x rest ih =>
    obtain ⟨h1, h2⟩ := h x (List.mem_cons_self _ _)
    have h3 : ¬ isEmptyJ (clean_api_data x) = true := by rw [h2, h1]; simp
    simp only [cleanList, if_neg h3]
    rw [h2, ih (fun y hy => h y (List.mem_cons_of_mem _ hy))]

/-- `cleanList` is literally the code's map-then-filter: clean every element,
keep the non-empty ones, preserving order. -/
theorem cleanList_eq_map_filter :
    ∀ l : List Json, cleanList l = (l.map clean_api_data).filter (fun y => !(isEmptyJ y)) := by
  intro l
  induction l with
  | nil => rfl
  | cons x rest ih =>
    simp only [cleanList, List.map_cons, List.filter_cons]
    cases h : isEmptyJ (clean_api_data x) <;> simp [h, ih]

/-- Claim C1: for every JSON-like mapping, `clean_api_data` drops every key
whose lower-cased form is in the noise set `FIELDS_TO_REMOVE`, and drops
every remaining key whose cleaned value is null, an empty string, an empty
sequence, or an empty mapping (every surviving key carries the non-empty
cleaned form of its input value); in particular
clean of the mapping nome=JOAO, status=OK, telefone="" is the mapping
nome=JOAO. -/
theorem C1_clean_mapping :
    (∀ (l : List (String × Json)) (k : String) (w : Json),
        (k, w) ∈ cleanPairs l →
        strLower k ∉ FIELDS_TO_REMOVE ∧ isEmptyJ w = false ∧
          ∃ v, (k, v) ∈ l ∧ w = clean_api_data v) ∧
    clean_api_data (Json.obj [("nome", Json.str "JOAO"), ("status", Json.str "OK"),
        ("telefone", Json.str "")]) = Json.obj [("nome", Json.str "JOAO")] := by
  constructor
  · intro l k w h
    obtain ⟨_, hf, he, hv⟩ := mem_cleanPairs h
    exact ⟨hf, he, hv⟩
  · decide

/-- Witness for C1: the general part applied to the concrete one-pair list. -/
theorem C1_clean_mapping_witness :
    (strLower "nome" ∉ FIELDS_TO_REMOVE ∧ isEmptyJ (Json.str "JOAO") = false ∧
      ∃ v, ("nome", v) ∈ [("nome", Json.str "JOAO")] ∧ Json.str "JOAO" = clean_api_data v) ∧
    clean_api_data (Json.obj [("nome", Json.str "JOAO"), ("status", Json.str "OK"),
        ("telefone", Json.str "")]) = Json.obj [("nome", Json.str "JOAO")] :=
  ⟨C1_clean_mapping.1 [("nome", Json.str "JOAO")] "nome" (Json.str "JOAO") (by decide),
   C1_clean_mapping.2⟩

/-- Claim C5: `clean_api_data` is idempotent — cleaning an already cleaned
tree changes nothing. -/
theorem C5_clean_idempotent :
    ∀ x, clean_api_data (clean_api_data x) = clean_api_data x := by
  apply json_size_ind (fun j => clean_api_data (clean_api_data j) = clean_api_data j)
  intro j IH
  cases j with
  | null => rfl
  | str s => rfl
  | num n => rfl
  | bool b => rfl
  | arr l =>
    show Json.arr (cleanList (cleanList l)) = Json.arr (cleanList l)
    congr 1
    apply cleanList_fixed
    intro y hy
    obtain ⟨he, x, hx, hy2⟩ := mem_cleanList hy
    subst hy2
    exact ⟨he, IH x (sizeOf_mem_arr hx)⟩
  | obj l =>
    show Json.obj (cleanPairs (cleanPairs l)) = Json.obj (cleanPairs l)
    congr 1
    apply cleanPairs_fixed
    intro p hp
    obtain ⟨k, w⟩ := p
    obtain ⟨hk, hf, he, v, hv, hw⟩ := mem_cleanPairs hp
    subst hw
    exact ⟨hk, hf, he, IH v (sizeOf_mem_obj hv)⟩

/-- Counterexample to claim C6: the list branch of `clean_api_data` does not
drop duplicates — cleaning the two-element list A, A returns it unchanged,
with two structurally equal elements. -/
theorem C6_counterexample :
    clean_api_data (Json.arr [Json.str "A", Json.str "A"])
      = Json.arr [Json.str "A", Json.str "A"] ∧
    ¬ ([Json.str "A", Json.str "A"] : List Json).Nodup := by decide

/-- Claim C6 as amended: for every sequence, `clean_api_data` recursively
cleans each element and drops the elements that are empty or null,
preserving order; exact duplicates are NOT removed and may persist. -/
theorem C6_amended_no_dedup :
    (∀ l, clean_api_data (Json.arr l)
        = Json.arr ((l.map clean_api_data).filter (fun y => !(isEmptyJ y)))) ∧
    clean_api_data (Json.arr [Json.str "A", Json.str "A"])
      = Json.arr [Json.str "A", Json.str "A"] := by
  constructor
  · intro l
    show Json.arr (cleanList l) = _
    rw [cleanList_eq_map_filter]
  · decide

/-- Counterexample to claim C7: `clean_api_data` performs no phrase removal,
whitespace collapsing, trimming, or empty-to-null conversion on string
leaves — an empty string stays an empty string (not null) and repeated
whitespace survives. -/
theorem C7_counterexample :
    clean_api_data (Json.str "") = Json.str "" ∧ Json.str "" ≠ Json.null ∧
    clean_api_data (Json.str "  a   b  ") = Json.str "  a   b  " ∧
    Json.str "  a   b  " ≠ Json.str "a b" := by decide

theorem strAppend_assoc (a b c : String) : a ++ b ++ c = a ++ (b ++ c) := by
  cases a; cases b; cases c
  simp only [HAppend.hAppend, Append.append, String.append]
  simp only [List.append_eq, List.append_assoc]

/-- When every attempt raises, the fetch loop runs all its iterations and
returns the error dict, having made one GET per iteration. -/
theorem fetchLoop_all_raise (net : Nat → NetOutcome) (url : String)
    (h : ∀ i, ∃ e, net i = NetOutcome.raise e) :
    ∀ (rem attempt : Nat) (le : Option String),
      ∃ le2, fetchLoop net url attempt rem le = (errorDict url le2, attempt + rem) := by
  intro rem
  induction rem with
  | zero => intro attempt le; exact ⟨le, rfl⟩
  | succ n ih =>
    intro attempt le
    obtain ⟨e, he⟩ := h attempt
    obtain ⟨le2, h2⟩ := ih (attempt + 1) (some e)
    refine ⟨le2, ?_⟩
    simp only [fetchLoop, he, h2]
    congr 1
    omega

/-- Cleaning the error dict yields the empty mapping: both of its keys are
in the noise set. -/
theorem clean_errorDict (url : String) (le : Option String) :
    clean_api_data (errorDict url le) = Json.obj [] := by
  have hs : strLower "status" ∈ FIELDS_TO_REMOVE := by decide
  have hm : strLower "message" ∈ FIELDS_TO_REMOVE := by decide
  show Json.obj (cleanPairs _) = _
  simp [cleanPairs, hs, hm]

/-- Claim C3: for a URL whose GET always raises a transport error,
`fetch_with_retries` with retries = 2 makes exactly 3 GET attempts in total
and returns an error mapping whose message string contains the URL. -/
theorem C3_fetch_three_attempts :
    ∀ (net : Nat → NetOutcome) (url : String),
      (∀ i, ∃ e, net i = NetOutcome.raise e) →
      (fetch_with_retries net url 2).2 = 3 ∧
      ∃ pre post,
        getMessage (fetch_with_retries net url 2).1 = some (pre ++ url ++ post) := by
  intro net url h
  obtain ⟨le2, h2⟩ := fetchLoop_all_raise net url h 3 0 none
  unfold fetch_with_retries
  rw [show (2 : Nat) + 1 = 3 from rfl, h2]
  constructor
  · rfl
  · refine ⟨"Falha ao acessar API (", "): " ++ excString le2, ?_⟩
    show some _ = _
    rw [strAppend_assoc]

/-- Witness for C3 at a concrete always-raising network oracle. -/
theorem C3_fetch_three_attempts_witness :
    (fetch_with_retries (fun _ => NetOutcome.raise "boom") "http://x" 2).2 = 3 ∧
    ∃ pre post,
      getMessage (fetch_with_retries (fun _ => NetOutcome.raise "boom") "http://x" 2).1
        = some (pre ++ "http://x" ++ post) :=
  C3_fetch_three_attempts _ "http://x" (fun _ => ⟨"boom", rfl⟩)

/-- Counterexample to claim C8: `fetch_with_retries` never inspects the HTTP
status. A response with status 500 is neither retried nor turned into an
ERROR value — its body is parsed and returned as the result after a single
attempt. -/
theorem C8_counterexample :
    fetch_with_retries
        (fun _ => NetOutcome.response 500 (some (Json.obj [("saldo", Json.str "100")])) "body")
        "http://u" 2
      = (Json.obj [("saldo", Json.str "100")], 1) ∧
    lookupKey [("saldo", Json.str "100")] "status" = none := by decide

/-- Claim C8 as amended: `fetch_with_retries` ignores the HTTP status
entirely — whatever status the first response carries, its body (or the
`_raw`-wrapped text when it is not JSON) is returned immediately as the
result, after exactly one attempt; only transport exceptions are retried. -/
theorem C8_amended_status_ignored :
    ∀ (net : Nat → NetOutcome) (url : String) (retries status : Nat)
      (body : Option Json) (text : String),
      net 0 = NetOutcome.response status body text →
      fetch_with_retries net url retries = (respToJson body text, 1) := by
  intro net url retries status body text h
  show fetchLoop net url 0 (retries + 1) none = _
  simp only [fetchLoop, h]

/-- Witness for the amended C8 at a concrete 404 response. -/
theorem C8_amended_status_ignored_witness :
    fetch_with_retries (fun _ => NetOutcome.response 404 none "oops") "u" 2
      = (respToJson none "oops", 1) :=
  C8_amended_status_ignored _ "u" 2 404 none "oops" rfl

/-- Claim C10: every error value returned by `fetch_with_retries` is a
mapping with exactly the keys status and message, both in the cleaner's
noise set, so cleaning it yields the empty mapping — after cleaning, an
ERROR result is indistinguishable from an empty result. -/
theorem C10_error_cleans_to_empty :
    ∀ (net : Nat → NetOutcome) (url : String) (retries : Nat),
      (∀ i, ∃ e, net i = NetOutcome.raise e) →
      objKeys (fetch_with_retries net url retries).1 = ["status", "message"] ∧
      strLower "status" ∈ FIELDS_TO_REMOVE ∧ strLower "message" ∈ FIELDS_TO_REMOVE ∧
      clean_api_data (fetch_with_retries net url retries).1 = Json.obj [] := by
  intro net url retries h
  obtain ⟨le2, h2⟩ := fetchLoop_all_raise net url h (retries + 1) 0 none
  unfold fetch_with_retries
  rw [h2]
  exact ⟨rfl, by decide, by decide, clean_errorDict url le2⟩

/-- Witness for C10 at a concrete always-raising network oracle. -/
theorem C10_error_cleans_to_empty_witness :
    objKeys (fetch_with_retries (fun _ => NetOutcome.raise "x") "u" 0).1
      = ["status", "message"] ∧
    strLower "status" ∈ FIELDS_TO_REMOVE ∧ strLower "message" ∈ FIELDS_TO_REMOVE ∧
    clean_api_data (fetch_with_retries (fun _ => NetOutcome.raise "x") "u" 0).1
      = Json.obj [] :=
  C10_error_cleans_to_empty _ "u" 0 (fun _ => ⟨"x", rfl⟩)

/-- Claim C7 as amended: `clean_api_data` returns every scalar unchanged —
strings included: no phrase-removal, whitespace collapsing, trimming, or
null-for-empty happens at scalar leaves (empty strings are only dropped
where they occur as mapping values or sequence elements). -/
theorem C7_amended_scalars_unchanged :
    ∀ (s : String) (n : Int) (b : Bool),
      clean_api_data (Json.str s) = Json.str s ∧
      clean_api_data (Json.num n) = Json.num n ∧
      clean_api_data (Json.bool b) = Json.bool b ∧
      clean_api_data Json.null = Json.null :=
  fun _ _ _ => ⟨rfl, rfl, rfl, rfl⟩

/-- `cache_get` on a key holding a known entry reduces to the expiry test. -/
theorem cache_get_found (c : Cache) (now : ℚ) (key : String) (exp : ℚ) (v : Json)
    (h : c key = some (exp, v)) :
    cache_get c now key
      = if now > exp then (none, fun k => if k = key then none else c k)
        else (some v, c) := by
  unfold cache_get
  rw [h]

/-- `cache_get` on an absent key is absent and leaves the cache unchanged. -/
theorem cache_get_absent (c : Cache) (now : ℚ) (key : String)
    (h : c key = none) : cache_get c now key = (none, c) := by
  unfold cache_get
  rw [h]

/-- Claim C4: after `cache_set k v ttl` at time `now`, a `cache_get`
performed before the expiry instant `now + ttl` returns `v`; a `cache_get`
performed after the expiry instant has passed removes the entry and reports
absent; and in general an expired entry is never served — whenever
`cache_get` returns a value, the entry's expiry has not passed. -/
theorem C4_cache_ttl :
    ∀ (c : Cache) (now : ℚ) (k : String) (v : Json) (ttl t1 t2 : ℚ),
      (t1 < now + ttl → (cache_get (cache_set c now k v ttl) t1 k).1 = some v) ∧
      (t2 > now + ttl →
        (cache_get (cache_set c now k v ttl) t2 k).1 = none ∧
        (cache_get (cache_set c now k v ttl) t2 k).2 k = none) ∧
      (∀ (c2 : Cache) (t : ℚ) (key : String) (w : Json),
        (cache_get c2 t key).1 = some w →
        ∃ exp, c2 key = some (exp, w) ∧ ¬ t > exp) := by
  intro c now k v ttl t1 t2
  have hk : cache_set c now k v ttl k = some (now + ttl, v) := by
    simp [cache_set]
  refine ⟨?_, ?_, ?_⟩
  · intro h
    rw [cache_get_found _ _ _ _ _ hk, if_neg (by linarith : ¬ t1 > now + ttl)]
  · intro h
    rw [cache_get_found _ _ _ _ _ hk, if_pos h]
    exact ⟨rfl, by simp⟩
  · intro c2 t key w hw
    cases hc : c2 key with
    | none => rw [cache_get_absent _ _ _ hc] at hw; exact absurd hw (by simp)
    | some p =>
      obtain ⟨exp, val⟩ := p
      rw [cache_get_found _ _ _ _ _ hc] at hw
      by_cases hexp : t > exp
      · rw [if_pos hexp] at hw; exact absurd hw (by simp)
      · rw [if_neg hexp] at hw
        have hvw : val = w := by simpa using hw
        exact ⟨exp, by rw [hvw], hexp⟩

/-- Witness for C4: a concrete cache with ttl 10 set at time 0, read at
times 5 (hit) and 20 (expired, evicted). -/
theorem C4_cache_ttl_witness :
    (cache_get (cache_set (fun _ => none) 0 "k" Json.null 10) 5 "k").1 = some Json.null ∧
    ((cache_get (cache_set (fun _ => none) 0 "k" Json.null 10) 20 "k").1 = none ∧
      (cache_get (cache_set (fun _ => none) 0 "k" Json.null 10) 20 "k").2 "k" = none) ∧
    (∃ exp, cache_set (fun _ => none) 0 "k" Json.null 10 "k" = some (exp, Json.null) ∧
      ¬ (5 : ℚ) > exp) := by
  obtain ⟨h1, h2, h3⟩ := C4_cache_ttl (fun _ => none) 0 "k" Json.null 10 5 20
  have hhit := h1 (by norm_num)
  exact ⟨hhit, h2 (by norm_num), h3 _ 5 "k" Json.null hhit⟩

/-- Updating an existing key stores the new value at that key. -/
theorem lookup_updateKey_self {m : List (String × Json)} {k : String} {e nv : Json}
    (h : lookupKey m k = some e) : lookupKey (updateKey m k nv) k = some nv := by
  induction m with
  | nil => simp [lookupKey] at h
  | cons p rest ih =>
    obtain ⟨k1, v1⟩ := p
    by_cases hk : k1 = k
    · simp [updateKey, lookupKey, hk]
    · simp only [lookupKey, if_neg hk] at h
      simp only [updateKey, if_neg hk, lookupKey, if_neg hk]
      exact ih h

/-- Updating one key does not change the value looked up at another. -/
theorem lookup_updateKey_ne {m : List (String × Json)} {k k2 : String} {nv : Json}
    (hne : k2 ≠ k) : lookupKey (updateKey m k nv) k2 = lookupKey m k2 := by
  induction m with
  | nil => rfl
  | cons p rest ih =>
    obtain ⟨k1, v1⟩ := p
    by_cases hk : k1 = k
    · subst hk
      simp only [updateKey, if_pos rfl, lookupKey]
      rw [if_neg (fun h => hne h.symm), if_neg (fun h => hne h.symm)]
    · simp only [updateKey, if_neg hk, lookupKey]
      by_cases hq : k1 = k2
      · rw [if_pos hq, if_pos hq]
      · rw [if_neg hq, if_neg hq]
        exact ih

/-- Appending a fresh pair at the end makes it visible at its key. -/
theorem lookup_append_self {m : List (String × Json)} {k : String} {v : Json}
    (h : lookupKey m k = none) : lookupKey (m ++ [(k, v)]) k = some v := by
  induction m with
  | nil => simp [lookupKey]
  | cons p rest ih =>
    obtain ⟨k1, v1⟩ := p
    by_cases hk : k1 = k
    · simp only [lookupKey, if_pos hk] at h
      exact absurd h (by simp)
    · simp only [lookupKey, if_neg hk] at h
      simp only [List.cons_append, lookupKey, if_neg hk]
      exact ih h

/-- Appending a pair at the end does not change other keys. -/
theorem lookup_append_ne {m : List (String × Json)} {k k2 : String} {v : Json}
    (hne : k2 ≠ k) : lookupKey (m ++ [(k, v)]) k2 = lookupKey m k2 := by
  induction m with
  | nil =>
    have hne2 : ¬ k = k2 := fun h => hne h.symm
    simp [lookupKey, hne2]
  | cons p rest ih =>
    obtain ⟨k1, v1⟩ := p
    simp only [List.cons_append, lookupKey]
    by_cases hq : k1 = k2
    · rw [if_pos hq, if_pos hq]
    · rw [if_neg hq, if_neg hq]
      exact ih

theorem stepVal_none (v : Json) : stepVal none v = some v := rfl

theorem stepVal_some (existing v : Json) :
    stepVal (some existing) v
      = if existing = v then some existing
        else some (Json.arr
          (if v ∈ asListJ existing then asListJ existing else asListJ existing ++ [v])) := rfl

/-- `insertPair` on a key not yet present appends the pair at the end. -/
theorem insertPair_absent {m : List (String × Json)} {k : String} {v : Json}
    (h : lookupKey m k = none) : insertPair m k v = m ++ [(k, v)] := by
  unfold insertPair
  rw [h]

/-- `insertPair` on a key already present: keep the dict unchanged on an
equal value, otherwise store the widened value list. -/
theorem insertPair_present {m : List (String × Json)} {k : String} {v existing : Json}
    (h : lookupKey m k = some existing) :
    insertPair m k v
      = if existing = v then m
        else updateKey m k (Json.arr
          (if v ∈ asListJ existing then asListJ existing else asListJ existing ++ [v])) := by
  unfold insertPair
  rw [h]

/-- What one `insertPair` does to the value stored at its own key is exactly
the per-key accumulator step `stepVal`. -/
theorem lookup_insertPair_self (m : List (String × Json)) (k : String) (v : Json) :
    lookupKey (insertPair m k v) k = stepVal (lookupKey m k) v := by
  cases h : lookupKey m k with
  | none =>
    rw [insertPair_absent h, stepVal_none]
    exact lookup_append_self h
  | some existing =>
    rw [insertPair_present h, stepVal_some]
    by_cases he : existing = v
    · rw [if_pos he, if_pos he]
      exact h
    · rw [if_neg he, if_neg he]
      exact lookup_updateKey_self h

/-- `insertPair` at one key does not change the value stored at another. -/
theorem lookup_insertPair_ne {m : List (String × Json)} {k k2 : String} {v : Json}
    (hne : k2 ≠ k) : lookupKey (insertPair m k v) k2 = lookupKey m k2 := by
  cases h : lookupKey m k with
  | none =>
    rw [insertPair_absent h]
    exact lookup_append_ne hne
  | some existing =>
    rw [insertPair_present h]
    by_cases he : existing = v
    · rw [if_pos he]
    · rw [if_neg he]
      exact lookup_updateKey_ne hne

/-- Folding the pairs of one input dict into the merged dict acts on each
key independently: the value stored at `k` is the fold of `stepVal` over the
values the input carries for `k`. -/
theorem lookup_foldl_insert (k : String) :
    ∀ (pairs m : List (String × Json)),
      lookupKey (pairs.foldl (fun m kv => insertPair m kv.1 kv.2) m) k
        = ((pairs.filter (fun p => p.1 = k)).map Prod.snd).foldl stepVal (lookupKey m k) := by
  intro pairs
  induction pairs with
  | nil => intro m; rfl
  | cons kv rest ih =>
    intro m
    obtain ⟨k1, v1⟩ := kv
    simp only [List.foldl_cons, List.filter_cons]
    by_cases hk : k1 = k
    · subst hk
      rw [ih, lookup_insertPair_self]
      simp
    · rw [ih, lookup_insertPair_ne (fun h => hk h.symm)]
      simp [hk]

/-- The value the whole `cpf_full` merge stores at a key is the fold of the
per-key step over all the values the inputs carry for that key, in input
order. -/
theorem lookup_mergeResults (ds : List Json) (k : String) :
    lookupKey (mergeResults ds) k = (ds.flatMap (valsFor k)).foldl stepVal none := by
  suffices h : ∀ (ds : List Json) (m : List (String × Json)),
      lookupKey (ds.foldl mergeDict m) k
        = (ds.flatMap (valsFor k)).foldl stepVal (lookupKey m k) by
    exact h ds []
  intro ds
  induction ds with
  | nil => intro m; rfl
  | cons d rest ih =>
    intro m
    simp only [List.foldl_cons, List.flatMap_cons, List.foldl_append]
    rw [ih]
    congr 1
    cases d with
    | obj pairs => exact lookup_foldl_insert k pairs m
    | null => rfl
    | str s => rfl
    | num n => rfl
    | bool b => rfl
    | arr l => rfl

/-- Membership in a fold of `insertDistinct` comes from the seed or the
processed list. -/
theorem mem_foldl_insertDistinct {y : Json} :
    ∀ (p acc : List Json), y ∈ p.foldl insertDistinct acc → y ∈ acc ∨ y ∈ p := by
  intro p
  induction p with
  | nil => intro acc h; exact Or.inl h
  | cons v rest ih =>
    intro acc h
    rcases ih _ h with hacc | hrest
    · unfold insertDistinct at hacc
      by_cases hv : v ∈ acc
      · rw [if_pos hv] at hacc
        exact Or.inl hacc
      · rw [if_neg hv] at hacc
        rcases List.mem_append.mp hacc with h1 | h2
        · exact Or.inl h1
        · simp only [List.mem_singleton] at h2
          subst h2
          exact Or.inr (List.mem_cons_self _ _)
    · exact Or.inr (List.mem_cons_of_mem _ hrest)

/-- Every element of the de-duplicated list occurs in the original list. -/
theorem mem_firstSeenDedup {y : Json} {vs : List Json} (h : y ∈ firstSeenDedup vs) :
    y ∈ vs :=
  (mem_foldl_insertDistinct vs [] h).resolve_left (by simp)

/-- Folding `insertDistinct` preserves the no-duplicates invariant. -/
theorem nodup_foldl_insertDistinct :
    ∀ (p acc : List Json), acc.Nodup → (p.foldl insertDistinct acc).Nodup := by
  intro p
  induction p with
  | nil => intro acc h; exact h
  | cons v rest ih =>
    intro acc h
    apply ih
    unfold insertDistinct
    by_cases hv : v ∈ acc
    · rw [if_pos hv]
      exact h
    · rw [if_neg hv]
      simp [List.nodup_append, h, hv]

/-- The first-seen de-duplication never contains two equal elements. -/
theorem nodup_firstSeenDedup (vs : List Json) : (firstSeenDedup vs).Nodup :=
  nodup_foldl_insertDistinct vs [] List.nodup_nil

theorem firstSeenDedup_snoc (p : List Json) (v : Json) :
    firstSeenDedup (p ++ [v]) = insertDistinct (firstSeenDedup p) v := by
  unfold firstSeenDedup
  rw [List.foldl_append]
  rfl

theorem accOf_eq_nil {vs : List Json} (h : firstSeenDedup vs = []) : accOf vs = none := by
  unfold accOf
  rw [h]

theorem accOf_eq_single {vs : List Json} {x : Json} (h : firstSeenDedup vs = [x]) :
    accOf vs = some x := by
  unfold accOf
  rw [h]

theorem accOf_eq_multi {vs : List Json} {x y : Json} {rest : List Json}
    (h : firstSeenDedup vs = x :: y :: rest) :
    accOf vs = some (Json.arr (x :: y :: rest)) := by
  unfold accOf
  rw [h]

theorem asListJ_nonArr : ∀ {x : Json}, isArrJ x = false → asListJ x = [x]
  | Json.null, _ => rfl
  | Json.str _, _ => rfl
  | Json.num _, _ => rfl
  | Json.bool _, _ => rfl
  | Json.obj _, _ => rfl
  | Json.arr _, h => by simp [isArrJ] at h

theorem arr_ne_nonArr {l : List Json} {v : Json} (h : isArrJ v = false) :
    Json.arr l ≠ v := by
  intro hc
  rw [← hc] at h
  simp [isArrJ] at h

/-- The per-key accumulator step realises, on non-sequence values, exactly
the spec's first-seen de-duplication: feeding one more value to the
accumulated state for a prefix `p` gives the accumulated state for
`p ++ [v]`. -/
theorem stepVal_accOf {p : List Json} {v : Json}
    (hp : ∀ y ∈ p, isArrJ y = false) (hv : isArrJ v = false) :
    stepVal (accOf p) v = accOf (p ++ [v]) := by
  have hsnoc := firstSeenDedup_snoc p v
  cases hd : firstSeenDedup p with
  | nil =>
    rw [accOf_eq_nil hd, stepVal_none]
    have h2 : firstSeenDedup (p ++ [v]) = [v] := by
      rw [hsnoc, hd]
      rfl
    rw [accOf_eq_single h2]
  | cons x tl =>
    have hxp : x ∈ firstSeenDedup p := by
      rw [hd]
      exact List.mem_cons_self _ _
    have hx : isArrJ x = false := hp x (mem_firstSeenDedup hxp)
    cases tl with
    | nil =>
      rw [accOf_eq_single hd, stepVal_some]
      by_cases hxv : x = v
      · rw [if_pos hxv]
        have h2 : firstSeenDedup (p ++ [v]) = [x] := by
          rw [hsnoc, hd]
          unfold insertDistinct
          rw [if_pos (by simp [hxv])]
        rw [accOf_eq_single h2, hxv]
      · rw [if_neg hxv, asListJ_nonArr hx]
        have hvx : ¬ v ∈ [x] := by
          simp only [List.mem_singleton]
          exact fun hc => hxv hc.symm
        rw [if_neg hvx]
        have h2 : firstSeenDedup (p ++ [v]) = [x, v] := by
          rw [hsnoc, hd]
          unfold insertDistinct
          rw [if_neg hvx]
          rfl
        rw [accOf_eq_multi h2]
        rfl
    | cons y rest =>
      rw [accOf_eq_multi hd, stepVal_some]
      rw [if_neg (arr_ne_nonArr hv)]
      have hal : asListJ (Json.arr (x :: y :: rest)) = x :: y :: rest := rfl
      rw [hal]
      have hins : firstSeenDedup (p ++ [v]) = insertDistinct (x :: y :: rest) v := by
        rw [hsnoc, hd]
      by_cases hvm : v ∈ x :: y :: rest
      · rw [if_pos hvm]
        have h2 : firstSeenDedup (p ++ [v]) = x :: y :: rest := by
          rw [hins]
          unfold insertDistinct
          rw [if_pos hvm]
        rw [accOf_eq_multi h2]
      · rw [if_neg hvm]
        have h2 : firstSeenDedup (p ++ [v]) = x :: y :: (rest ++ [v]) := by
          rw [hins]
          unfold insertDistinct
          rw [if_neg hvm]
          rfl
        rw [accOf_eq_multi h2]
        rfl

/-- Folding the per-key step over a whole value list of non-sequence values
computes the accumulated state of that list. -/
theorem foldl_stepVal_accOf :
    ∀ (vs p : List Json),
      (∀ y ∈ p, isArrJ y = false) → (∀ y ∈ vs, isArrJ y = false) →
      vs.foldl stepVal (accOf p) = accOf (p ++ vs) := by
  intro vs
  induction vs with
  | nil =>
    intro p hp hvs
    simp
  | cons v rest ih =>
    intro p hp hvs
    simp only [List.foldl_cons]
    rw [stepVal_accOf hp (hvs v (List.mem_cons_self _ _))]
    rw [ih (p ++ [v])
      (by
        intro y hy
        rcases List.mem_append.mp hy with h1 | h2
        · exact hp y h1
        · simp only [List.mem_singleton] at h2
          subst h2
          exact hvs y (List.mem_cons_self _ _))
      (fun y hy => hvs y (List.mem_cons_of_mem _ hy))]
    rw [List.append_assoc, List.singleton_append]

/-- Counterexample to claim C2: with the legitimately cleaned inputs
x = the list [A, A] and x = B (cleaning leaves both unchanged), the merge
stores [A, A, B] under x — a collection which contains the value A twice,
contradicting the claimed "distinct values ... without duplicates". -/
theorem C2_counterexample :
    clean_api_data (Json.obj [("x", Json.arr [Json.str "A", Json.str "A"])])
      = Json.obj [("x", Json.arr [Json.str "A", Json.str "A"])] ∧
    clean_api_data (Json.obj [("x", Json.str "B")]) = Json.obj [("x", Json.str "B")] ∧
    lookupKey (mergeResults [Json.obj [("x", Json.arr [Json.str "A", Json.str "A"])],
        Json.obj [("x", Json.str "B")]]) "x"
      = some (Json.arr [Json.str "A", Json.str "A", Json.str "B"]) ∧
    ¬ ([Json.str "A", Json.str "A", Json.str "B"] : List Json).Nodup := by decide

/-- Claim C2 as amended: for every key all of whose encountered values are
non-sequences, the merged result stores either the common value (when the
distinct values reduce to one) or the list of the distinct values
encountered, in first-seen order, without duplicates; the spec's example
merge of nome=JOAO with nome=MARIA gives nome=[JOAO, MARIA]. (When an
encountered value is itself a sequence the loop conflates it with its
accumulator list, and duplicates inside it can survive — see the
counterexample.) -/
theorem C2_merge_distinct_values :
    ∀ (ds : List Json) (k : String),
      (∀ v ∈ ds.flatMap (valsFor k), isArrJ v = false) →
      lookupKey (mergeResults ds) k = accOf (ds.flatMap (valsFor k)) ∧
      (firstSeenDedup (ds.flatMap (valsFor k))).Nodup ∧
      mergeResults [Json.obj [("nome", Json.str "JOAO")], Json.obj [("nome", Json.str "MARIA")]]
        = [("nome", Json.arr [Json.str "JOAO", Json.str "MARIA"])] := by
  intro ds k h
  refine ⟨?_, nodup_firstSeenDedup _, by decide⟩
  rw [lookup_mergeResults]
  have h2 := foldl_stepVal_accOf (ds.flatMap (valsFor k)) [] (by simp) h
  simpa using h2

/-- Witness for the amended C2 at the spec's own example. -/
theorem C2_merge_distinct_values_witness :
    lookupKey (mergeResults [Json.obj [("nome", Json.str "JOAO")],
        Json.obj [("nome", Json.str "MARIA")]]) "nome"
      = accOf ([Json.obj [("nome", Json.str "JOAO")],
          Json.obj [("nome", Json.str "MARIA")]].flatMap (valsFor "nome")) ∧
    (firstSeenDedup ([Json.obj [("nome", Json.str "JOAO")],
        Json.obj [("nome", Json.str "MARIA")]].flatMap (valsFor "nome"))).Nodup ∧
    mergeResults [Json.obj [("nome", Json.str "JOAO")], Json.obj [("nome", Json.str "MARIA")]]
      = [("nome", Json.arr [Json.str "JOAO", Json.str "MARIA"])] :=
  C2_merge_distinct_values
    [Json.obj [("nome", Json.str "JOAO")], Json.obj [("nome", Json.str "MARIA")]]
    "nome" (by decide)

/-- Counterexample to claim C9: merging two inputs that both carry a mapping
under k stores the two mappings as an opaque two-element list — not the
recursive merge of the two mappings, which the same algorithm applied to
them would give (a = [1, 2]). -/
theorem C9_counterexample :
    mergeResults [Json.obj [("k", Json.obj [("a", Json.str "1")])],
        Json.obj [("k", Json.obj [("a", Json.str "2")])]]
      = [("k", Json.arr [Json.obj [("a", Json.str "1")], Json.obj [("a", Json.str "2")]])] ∧
    mergeResults [Json.obj [("a", Json.str "1")], Json.obj [("a", Json.str "2")]]
      = [("a", Json.arr [Json.str "1", Json.str "2"])] ∧
    Json.arr [Json.obj [("a", Json.str "1")], Json.obj [("a", Json.str "2")]]
      ≠ Json.obj [("a", Json.arr [Json.str "1", Json.str "2"])] := by decide

/-- Claim C9 as amended: when a key already maps to a mapping and a second,
different mapping arrives for it, the merge does not recurse into the two
mappings: it treats them as opaque values and stores the two-element list
[first mapping, second mapping] under the key. -/
theorem C9_nested_mappings_opaque :
    ∀ (m : List (String × Json)) (k : String) (p1 p2 : List (String × Json)),
      lookupKey m k = some (Json.obj p1) → Json.obj p1 ≠ Json.obj p2 →
      lookupKey (insertPair m k (Json.obj p2)) k
        = some (Json.arr [Json.obj p1, Json.obj p2]) := by
  intro m k p1 p2 h hne
  rw [insertPair_present h, if_neg hne]
  have hm : ¬ Json.obj p2 ∈ asListJ (Json.obj p1) := by
    simp only [asListJ, List.mem_singleton]
    exact fun hc => hne hc.symm
  rw [if_neg hm]
  exact lookup_updateKey_self h

/-- Witness for the amended C9 at two concrete nested mappings. -/
theorem C9_nested_mappings_opaque_witness :
    lookupKey (insertPair [("k", Json.obj [("a", Json.str "1")])] "k"
        (Json.obj [("a", Json.str "2")])) "k"
      = some (Json.arr [Json.obj [("a", Json.str "1")], Json.obj [("a", Json.str "2")]]) :=
  C9_nested_mappings_opaque [("k", Json.obj [("a", Json.str "1")])] "k"
    [("a", Json.str "1")] [("a", Json.str "2")] (by decide) (by decide)
